import Mathlib

/-!
Verification development for the sam_subsample tool (src/main.rs).

The program reads a queryname-sorted record stream, groups consecutive
records that share a qname into templates, keeps a reservoir of at most
`num` templates using the decision implemented in the main loop
(lines 181-214) and in the post-loop block (lines 215-225), and finally
writes every record of every retained template.

The embedding below mirrors the loop state of `main`: the counter `k`,
the vector `v` of retained record sets, the cached record set `rs`, the
previous qname `ridPrev`, and a counter `t` of RNG draws consumed so far.
The RNG is modelled as a stream of rationals in the unit interval
[0,1), matching the contract of `rng.gen::<f64>()`.
-/

namespace SamSub

/-- A BAM/SAM record as the core algorithm sees it: a grouping key
(the qname) and an opaque payload distinguishing records. -/
structure Rec where
  qname : String
  payload : Nat
deriving DecidableEq, Repr

/-- A draw of the RNG: a rational in the unit interval [0,1). -/
abbrev U01 : Type := {q : ℚ // 0 ≤ q ∧ q < 1}

/-- The index computed by the Rust expression
`let i = (f * (k as f64)) as usize;` (lines 195 and 221): the product is
truncated toward zero, which for a nonnegative value is the floor. -/
def idxFor (f : ℚ) (k : Nat) : Nat :=
  (Int.floor (f * (k : ℚ))).toNat

/-- The two-branch per-template decision duplicated at lines 191-199 and
lines 216-224 of main.rs: while `k < num` push the cached record set,
otherwise draw `f`, compute `i` and overwrite `v[i]` when `i < num`. -/
def decideTemplate (num : Nat) (f : U01) (k : Nat) (rs : List Rec)
    (v : List (List Rec)) : List (List Rec) :=
  if k < num then v ++ [rs]
  else
    let i := idxFor f.val k
    if i < num then v.set i rs else v

/-- The loop state of `main`: counter `k`, the reservoir vector `v`, the
cached record set `rs`, the previous qname `ridPrev`, and the number `t`
of RNG draws consumed so far. -/
structure LoopSt where
  k : Nat
  v : List (List Rec)
  rs : List Rec
  ridPrev : Option String
  t : Nat
deriving DecidableEq, Repr

/-- Initial state (lines 172-177): `k = 0`, empty vector, empty cache,
no previous qname, no draws consumed. -/
def initSt : LoopSt := ⟨0, [], [], none, 0⟩

/-- One iteration of the `for rec in infh.records()` loop (lines 181-214):
if there is no previous qname or the record's qname equals it, the record
is appended to the cache; otherwise the cached template is processed by
the two-branch decision, `k` is incremented, and the cache restarts with
the current record.  A draw is consumed only in the `k >= num` branch. -/
def procStep (num : Nat) (draws : Nat → U01) (st : LoopSt) (r : Rec) : LoopSt :=
  if st.ridPrev = none ∨ st.ridPrev = some r.qname then
    { st with ridPrev := some r.qname, rs := st.rs ++ [r] }
  else
    { k := st.k + 1
      v := decideTemplate num (draws st.t) st.k st.rs st.v
      rs := [r]
      ridPrev := some r.qname
      t := if st.k < num then st.t else st.t + 1 }

/-- The post-loop block at lines 216-225: the cached record set is
processed once more by the same two branches, but `k` is not incremented
afterwards. -/
def finalizeRun (num : Nat) (draws : Nat → U01) (st : LoopSt) : List (List Rec) :=
  if st.k < num then st.v ++ [st.rs]
  else
    let f := draws st.t
    let i := idxFor f.val st.k
    if i < num then st.v.set i st.rs else st.v

/-- The complete run of the sampler on a record stream: fold the loop
body over the records and apply the post-loop block. -/
def runSampler (num : Nat) (draws : Nat → U01) (recs : List Rec) :
    List (List Rec) :=
  finalizeRun num draws (recs.foldl (procStep num draws) initSt)

/-- The value of the counter `k` after stream exhaustion (it is not
touched by the post-loop block). -/
def finalK (num : Nat) (draws : Nat → U01) (recs : List Rec) : Nat :=
  (recs.foldl (procStep num draws) initSt).k

/-- The emission loop at lines 227-231: every record of every retained
record set, in slot order. -/
def outputRecords (num : Nat) (draws : Nat → U01) (recs : List Rec) :
    List Rec :=
  (runSampler num draws recs).flatten

/-- The entries of the reservoir vector that hold an actual template,
i.e. a nonempty record set. -/
def nonempties (v : List (List Rec)) : List (List Rec) :=
  v.filter (fun g => !g.isEmpty)

/-- The template grouping implicit in the loop condition at line 185:
accumulate while the qname matches, emit the finished run otherwise.
`key` is the qname of the open run `cur`. -/
def groupAux (key : String) (cur : List Rec) : List Rec → List (List Rec)
  | [] => [cur]
  | r :: rest =>
    if r.qname = key then groupAux key (cur ++ [r]) rest
    else cur :: groupAux r.qname [r] rest

/-- The sequence of templates (maximal contiguous same-qname runs) of a
record stream. -/
def group : List Rec → List (List Rec)
  | [] => []
  | r :: rest => groupAux r.qname [r] rest

/-- Sampler state when the stream is viewed as a stream of templates:
counter `k`, draw counter `t`, reservoir vector `v`. -/
structure SSt where
  k : Nat
  t : Nat
  v : List (List Rec)
deriving DecidableEq, Repr

/-- The per-template reservoir decision together with the unconditional
increment of `k`, as one step over the template stream. -/
def sstep (num : Nat) (draws : Nat → U01) (s : SSt) (tpl : List Rec) : SSt :=
  if s.k < num then ⟨s.k + 1, s.t, s.v ++ [tpl]⟩
  else
    let i := idxFor (draws s.t).val s.k
    ⟨s.k + 1, s.t + 1, if i < num then s.v.set i tpl else s.v⟩

/-- Reservoir sampling over an explicit template list, from the initial
state. -/
def sampleRun (num : Nat) (draws : Nat → U01) (tpls : List (List Rec)) :
    List (List Rec) :=
  (tpls.foldl (sstep num draws) ⟨0, 0, []⟩).v

/-- Per-template decision as worded in the spec (section 4.2): if
`k < N` place the template in the next slot, else compute the candidate
index as the floor of `f * k` with the count before incrementing and
overwrite that slot when it is below `N`, otherwise discard. -/
def specDecision (num : Nat) (f : ℚ) (k : Nat) (tpl : List Rec)
    (v : List (List Rec)) : List (List Rec) :=
  if k < num then v ++ [tpl]
  else if Nat.floor (f * (k : ℚ)) < num then
    v.set (Nat.floor (f * (k : ℚ))) tpl
  else v

/-- A concrete all-zero draw stream, used for concrete evaluations. -/
def zeroDraws : Nat → U01 := fun _ => ⟨0, by norm_num⟩

/-- Concrete records used in concrete evaluations. -/
def rA1 : Rec := ⟨"A", 1⟩

def rA2 : Rec := ⟨"A", 2⟩

def rB3 : Rec := ⟨"B", 3⟩

def rC4 : Rec := ⟨"C", 4⟩

def rC5 : Rec := ⟨"C", 5⟩

def rC6 : Rec := ⟨"C", 6⟩

/-- The truncating cast agrees with the natural floor: the Rust
`as usize` of a nonnegative float is its floor. -/
lemma idxFor_eq_floor (f : ℚ) (k : Nat) : idxFor f k = Nat.floor (f * (k : ℚ)) := by
  rw [idxFor, Int.floor_toNat]

/-- For a draw in [0,1) and a positive count the candidate index is
strictly below the count. -/
lemma idxFor_lt (f : U01) (k : Nat) (hk : 1 ≤ k) : idxFor f.val k < k := by
  have hk0 : (0 : ℚ) < (k : ℚ) := by exact_mod_cast hk
  have h1 : f.val * (k : ℚ) < (k : ℚ) := by
    calc f.val * (k : ℚ) < 1 * (k : ℚ) := mul_lt_mul_of_pos_right f.2.2 hk0
    _ = (k : ℚ) := one_mul _
  have h2 : Int.floor (f.val * (k : ℚ)) < (k : ℤ) := by
    rw [Int.floor_lt]
    exact_mod_cast h1
  unfold idxFor
  omega

/-- Flattening the groups of a stream restores the open run followed by
the remaining records. -/
lemma groupAux_flatten (rest : List Rec) : ∀ (key : String) (cur : List Rec),
    (groupAux key cur rest).flatten = cur ++ rest := by
  induction rest with
  | nil => intro key cur; simp [groupAux]
  | cons r rest ih =>
    intro key cur
    by_cases hq : r.qname = key
    · rw [groupAux, if_pos hq, ih]
      simp
    · rw [groupAux, if_neg hq]
      simp [ih]

/-- Flattening the groups of a stream restores the stream. -/
lemma group_flatten (recs : List Rec) : (group recs).flatten = recs := by
  cases recs with
  | nil => rfl
  | cons r rest => rw [group, groupAux_flatten]; rfl

/-- Every group produced from a nonempty open run is nonempty. -/
lemma groupAux_nonempty (rest : List Rec) : ∀ (key : String) (cur : List Rec),
    cur ≠ [] → ∀ g ∈ groupAux key cur rest, g ≠ [] := by
  induction rest with
  | nil => intro key cur hcur g hg; rw [groupAux] at hg; simp at hg; simpa [hg]
  | cons r rest ih =>
    intro key cur hcur g hg
    by_cases hq : r.qname = key
    · rw [groupAux, if_pos hq] at hg
      exact ih key (cur ++ [r]) (by simp) g hg
    · rw [groupAux, if_neg hq] at hg
      rcases List.mem_cons.mp hg with h | h
      · simpa [h]
      · exact ih r.qname [r] (by simp) g h

/-- Every group of a stream is nonempty. -/
lemma group_mem_nonempty (recs : List Rec) : ∀ g ∈ group recs, g ≠ [] := by
  cases recs with
  | nil => intro g hg; simp [group] at hg
  | cons r rest =>
    intro g hg
    exact groupAux_nonempty rest r.qname [r] (by simp) g hg

/-- All records of a group share one qname, assuming the open run does. -/
lemma groupAux_samekey (rest : List Rec) : ∀ (key : String) (cur : List Rec),
    (∀ x ∈ cur, x.qname = key) →
    ∀ g ∈ groupAux key cur rest, ∃ q, ∀ x ∈ g, x.qname = q := by
  induction rest with
  | nil =>
    intro key cur hcur g hg
    rw [groupAux] at hg; simp at hg
    exact ⟨key, hg ▸ hcur⟩
  | cons r rest ih =>
    intro key cur hcur g hg
    by_cases hq : r.qname = key
    · rw [groupAux, if_pos hq] at hg
      refine ih key (cur ++ [r]) ?_ g hg
      intro x hx
      rcases List.mem_append.mp hx with h | h
      · exact hcur x h
      · simp at h; rw [h, hq]
    · rw [groupAux, if_neg hq] at hg
      rcases List.mem_cons.mp hg with h | h
      · exact ⟨key, h ▸ hcur⟩
      · exact ih r.qname [r] (by simp) g h

/-- The first group keeps the key of the open run. -/
lemma groupAux_head_key (rest : List Rec) : ∀ (key : String) (cur : List Rec),
    (∀ x ∈ cur, x.qname = key) →
    ∀ g ∈ (groupAux key cur rest).head?, ∀ x ∈ g, x.qname = key := by
  induction rest with
  | nil =>
    intro key cur hcur g hg
    rw [groupAux] at hg; simp at hg
    exact hg ▸ hcur
  | cons r rest ih =>
    intro key cur hcur g hg
    by_cases hq : r.qname = key
    · rw [groupAux, if_pos hq] at hg
      refine ih key (cur ++ [r]) ?_ g hg
      intro x hx
      rcases List.mem_append.mp hx with h | h
      · exact hcur x h
      · simp at h; rw [h, hq]
    · rw [groupAux, if_neg hq] at hg
      simp at hg
      exact hg ▸ hcur

/-- Adjacent groups carry different qnames: the runs are maximal. -/
lemma groupAux_chain (rest : List Rec) : ∀ (key : String) (cur : List Rec),
    (∀ x ∈ cur, x.qname = key) →
    List.Chain' (fun g1 g2 => ∀ x ∈ g1, ∀ y ∈ g2, x.qname ≠ y.qname)
      (groupAux key cur rest) := by
  induction rest with
  | nil => intro key cur hcur; rw [groupAux]; simp
  | cons r rest ih =>
    intro key cur hcur
    by_cases hq : r.qname = key
    · rw [groupAux, if_pos hq]
      refine ih key (cur ++ [r]) ?_
      intro x hx
      rcases List.mem_append.mp hx with h | h
      · exact hcur x h
      · simp at h; rw [h, hq]
    · rw [groupAux, if_neg hq]
      rw [List.chain'_cons']
      refine ⟨?_, ih r.qname [r] (by simp)⟩
      intro b hb x hx y hy
      have hyq : y.qname = r.qname := groupAux_head_key rest r.qname [r] (by simp) b hb y hy
      have hxq : x.qname = key := hcur x hx
      rw [hxq, hyq]
      intro h
      exact hq h.symm

/-- One template step always increments the counter. -/
lemma sstep_k (num : Nat) (draws : Nat → U01) (s : SSt) (tpl : List Rec) :
    (sstep num draws s tpl).k = s.k + 1 := by
  rw [sstep]
  split <;> rfl

/-- Folding the template decision adds the number of templates to the
counter. -/
lemma sfold_k (num : Nat) (draws : Nat → U01) : ∀ (tpls : List (List Rec)) (s : SSt),
    (tpls.foldl (sstep num draws) s).k = s.k + tpls.length := by
  intro tpls
  induction tpls with
  | nil => intro s; simp
  | cons tpl rest ih =>
    intro s
    rw [List.foldl_cons, ih, sstep_k]
    simp only [List.length_cons]
    omega

/-- The reservoir vector length is the minimum of the counter and the
capacity, at every point of the template fold. -/
lemma sfold_length (num : Nat) (draws : Nat → U01) : ∀ (tpls : List (List Rec)) (s : SSt),
    s.v.length = min s.k num →
    (tpls.foldl (sstep num draws) s).v.length = min (s.k + tpls.length) num := by
  intro tpls
  induction tpls with
  | nil => intro s h; simpa using h
  | cons tpl rest ih =>
    intro s h
    rw [List.foldl_cons]
    have hstep : (sstep num draws s tpl).v.length = min (s.k + 1) num := by
      rw [sstep]
      split
      · simp [h]; omega
      · simp only []
        split
        · simp [List.length_set, h]; omega
        · simp [h]; omega
    have := ih (sstep num draws s tpl) (by rw [hstep, sstep_k])
    rw [this, sstep_k]
    congr 1
    simp [List.length_cons]
    omega

/-- While the capacity is not exceeded every template is appended in
arrival order. -/
lemma sfold_retain (num : Nat) (draws : Nat → U01) : ∀ (tpls : List (List Rec)) (s : SSt),
    s.k + tpls.length ≤ num →
    (tpls.foldl (sstep num draws) s).v = s.v ++ tpls := by
  intro tpls
  induction tpls with
  | nil => intro s _; simp
  | cons tpl rest ih =>
    intro s h
    simp only [List.length_cons] at h
    have hk : s.k < num := by omega
    rw [List.foldl_cons, sstep, if_pos hk]
    rw [ih ⟨s.k + 1, s.t, s.v ++ [tpl]⟩ (by simpa using by omega)]
    simp

/-- Nonempty record sets stay nonempty through the template fold. -/
lemma sfold_nonempty (num : Nat) (draws : Nat → U01) : ∀ (tpls : List (List Rec)) (s : SSt),
    (∀ e ∈ s.v, e ≠ []) → (∀ tp ∈ tpls, tp ≠ []) →
    ∀ e ∈ (tpls.foldl (sstep num draws) s).v, e ≠ [] := by
  intro tpls
  induction tpls with
  | nil => intro s hv _ e he; exact hv e he
  | cons tpl rest ih =>
    intro s hv htp e he
    rw [List.foldl_cons] at he
    refine ih (sstep num draws s tpl) ?_ (fun tp h => htp tp (List.mem_cons_of_mem _ h)) e he
    intro x hx
    have htpl : tpl ≠ [] := htp tpl (List.mem_cons_self _ _)
    rw [sstep] at hx
    split at hx
    · rcases List.mem_append.mp hx with h | h
      · exact hv x h
      · simp at h; rw [h]; exact htpl
    · simp only [] at hx
      split at hx
      · rcases List.mem_or_eq_of_mem_set hx with h | h
        · exact hv x h
        · rw [h]; exact htpl
      · exact hv x hx

/-- The fused loop followed by the post-loop block computes exactly the
template-level reservoir fold over the groups of the remaining records,
given an open run with its key. -/
lemma bridge (num : Nat) (draws : Nat → U01) : ∀ (rest : List Rec) (key : String)
    (cur : List Rec) (k t : Nat) (v : List (List Rec)),
    finalizeRun num draws (rest.foldl (procStep num draws) ⟨k, v, cur, some key, t⟩) =
      ((groupAux key cur rest).foldl (sstep num draws) ⟨k, t, v⟩).v := by
  intro rest
  induction rest with
  | nil =>
    intro key cur k t v
    simp only [groupAux, List.foldl_nil, List.foldl_cons]
    rw [finalizeRun, sstep]
    by_cases h : k < num
    · rw [if_pos h, if_pos h]
    · rw [if_neg h, if_neg h]
  | cons r rest ih =>
    intro key cur k t v
    by_cases hq : r.qname = key
    · have hstep : procStep num draws ⟨k, v, cur, some key, t⟩ r =
          ⟨k, v, cur ++ [r], some r.qname, t⟩ := by
        simp [procStep, hq]
      rw [List.foldl_cons, hstep, hq]
      simp only [groupAux, if_pos hq]
      exact ih key (cur ++ [r]) k t v
    · have hstep : procStep num draws ⟨k, v, cur, some key, t⟩ r =
          ⟨k + 1, decideTemplate num (draws t) k cur v, [r], some r.qname,
            if k < num then t else t + 1⟩ := by
        simp [procStep, Ne.symm hq]
      have hss : sstep num draws ⟨k, t, v⟩ cur =
          ⟨k + 1, if k < num then t else t + 1,
            decideTemplate num (draws t) k cur v⟩ := by
        rw [sstep, decideTemplate]
        by_cases h : k < num
        · simp [h]
        · simp [h]
      rw [List.foldl_cons, hstep]
      simp only [groupAux, if_neg hq, List.foldl_cons]
      rw [hss]
      exact ih r.qname [r] (k + 1) (if k < num then t else t + 1)
        (decideTemplate num (draws t) k cur v)

/-- The loop counter after the fold counts one less than the groups of
the remaining records together with the open run: the final group is
processed only by the post-loop block, which does not increment `k`. -/
lemma bridge_k (num : Nat) (draws : Nat → U01) : ∀ (rest : List Rec) (key : String)
    (cur : List Rec) (k t : Nat) (v : List (List Rec)),
    (rest.foldl (procStep num draws) ⟨k, v, cur, some key, t⟩).k + 1 =
      k + (groupAux key cur rest).length := by
  intro rest
  induction rest with
  | nil => intro key cur k t v; simp [groupAux]
  | cons r rest ih =>
    intro key cur k t v
    by_cases hq : r.qname = key
    · have hstep : procStep num draws ⟨k, v, cur, some key, t⟩ r =
          ⟨k, v, cur ++ [r], some r.qname, t⟩ := by
        simp [procStep, hq]
      rw [List.foldl_cons, hstep, hq]
      simp only [groupAux, if_pos hq]
      exact ih key (cur ++ [r]) k t v
    · have hstep : procStep num draws ⟨k, v, cur, some key, t⟩ r =
          ⟨k + 1, decideTemplate num (draws t) k cur v, [r], some r.qname,
            if k < num then t else t + 1⟩ := by
        simp [procStep, Ne.symm hq]
      rw [List.foldl_cons, hstep]
      simp only [groupAux, if_neg hq, List.length_cons]
      rw [ih r.qname [r] (k + 1) (if k < num then t else t + 1)
        (decideTemplate num (draws t) k cur v)]
      omega

/-- The first record of a nonempty stream is cached without any
decision. -/
lemma procStep_init (num : Nat) (draws : Nat → U01) (r : Rec) :
    procStep num draws initSt r = ⟨0, [], [r], some r.qname, 0⟩ := by
  simp [procStep, initSt]

/-- On a nonempty stream the fused program computes the reservoir fold
over its groups. -/
lemma run_eq_sample (num : Nat) (draws : Nat → U01) (r : Rec) (rest : List Rec) :
    runSampler num draws (r :: rest) = sampleRun num draws (group (r :: rest)) := by
  rw [runSampler, sampleRun, group, List.foldl_cons, procStep_init]
  exact bridge num draws rest r.qname [r] 0 0 []

/-- On the empty stream the post-loop block pushes the empty cached
record set whenever the capacity is positive. -/
lemma runSampler_nil (num : Nat) (draws : Nat → U01) :
    runSampler num draws [] = if 0 < num then [[]] else [] := by
  by_cases h : 0 < num
  · simp [runSampler, finalizeRun, initSt, h]
  · have h0 : num = 0 := by omega
    subst h0
    simp [runSampler, finalizeRun, initSt, idxFor]

/-- One loop iteration preserves the length invariant of the reservoir
vector. -/
lemma procStep_length (num : Nat) (draws : Nat → U01) (st : LoopSt) (r : Rec)
    (h : st.v.length = min st.k num) :
    (procStep num draws st r).v.length = min (procStep num draws st r).k num := by
  rw [procStep]
  split
  · exact h
  · show (decideTemplate num (draws st.t) st.k st.rs st.v).length = min (st.k + 1) num
    rw [decideTemplate]
    by_cases hk : st.k < num
    · rw [if_pos hk]
      simp only [List.length_append, List.length_cons, List.length_nil, h]
      have hm1 : min st.k num = st.k := Nat.min_eq_left (le_of_lt hk)
      have hm2 : min (st.k + 1) num = st.k + 1 := Nat.min_eq_left hk
      omega
    · rw [if_neg hk]
      have hm1 : min st.k num = num := Nat.min_eq_right (by omega)
      have hm2 : min (st.k + 1) num = num := Nat.min_eq_right (by omega)
      by_cases hi : idxFor (draws st.t).val st.k < num
      · simp only [if_pos hi, List.length_set, h, hm1, hm2]
      · simp only [if_neg hi, h, hm1, hm2]

/-- The reservoir vector length equals the minimum of the counter and
the capacity in every reachable loop state. -/
lemma foldl_length_inv (num : Nat) (draws : Nat → U01) : ∀ (recs : List Rec) (st : LoopSt),
    st.v.length = min st.k num →
    (recs.foldl (procStep num draws) st).v.length =
      min (recs.foldl (procStep num draws) st).k num := by
  intro recs
  induction recs with
  | nil => intro st h; simpa using h
  | cons r rest ih =>
    intro st h
    rw [List.foldl_cons]
    exact ih (procStep num draws st r) (procStep_length num draws st r h)

/-- The reservoir vector never exceeds the capacity after the post-loop
block, given the length invariant at stream end. -/
lemma finalize_length_le (num : Nat) (draws : Nat → U01) (st : LoopSt)
    (h : st.v.length = min st.k num) :
    (finalizeRun num draws st).length ≤ num := by
  by_cases hk : st.k < num
  · rw [finalizeRun, if_pos hk]
    simp only [List.length_append, List.length_cons, List.length_nil, h]
    have hm : min st.k num = st.k := Nat.min_eq_left (le_of_lt hk)
    omega
  · rw [finalizeRun, if_neg hk]
    have hm : min st.k num = num := Nat.min_eq_right (by omega)
    by_cases hi : idxFor (draws st.t).val st.k < num
    · simp only [if_pos hi, List.length_set, h, hm, le_refl]
    · simp only [if_neg hi, h, hm, le_refl]

/-- A vector all of whose entries are nonempty is untouched by the
nonempty filter. -/
lemma nonempties_eq_self (v : List (List Rec)) (h : ∀ e ∈ v, e ≠ []) :
    nonempties v = v := by
  rw [nonempties]
  refine List.filter_eq_self.mpr ?_
  intro a ha
  cases a with
  | nil => exact absurd rfl (h [] ha)
  | cons x xs => rfl

/-- Every entry of the final vector of a nonempty stream is a nonempty
record set. -/
lemma runSampler_cons_entries (num : Nat) (draws : Nat → U01) (r : Rec)
    (rest : List Rec) : ∀ e ∈ runSampler num draws (r :: rest), e ≠ [] := by
  rw [run_eq_sample, sampleRun]
  exact sfold_nonempty num draws (group (r :: rest)) ⟨0, 0, []⟩
    (by intro e he; simp at he) (group_mem_nonempty _)

/-- With capacity one and two templates the second template always
overwrites slot zero: the first draw is in [0,1), so its floor times one
is zero.  The outcome does not depend on the draw stream at all. -/
lemma two_templates_always_second :
    (fun d : Nat → U01 => runSampler 1 d [rA1, rB3]) = fun _ => [[rB3]] := by
  funext d
  have hfloor : Int.floor (d 0).val = 0 :=
    Int.floor_eq_zero_iff.mpr (Set.mem_Ico.mpr ⟨(d 0).2.1, (d 0).2.2⟩)
  simp [runSampler, procStep, finalizeRun, decideTemplate, idxFor, initSt,
    rA1, rB3, hfloor]

/-- C1: the per-template decision agrees with the spec wording: while
k is below the capacity the template is appended, landing in slot k of
the vector; otherwise the candidate index is the floor of f times the
pre-increment count k, the template overwrites that slot when the index
is below the capacity and is discarded otherwise; the post-loop block
applies the identical decision to the final cached template, and the
in-loop branch applies it before restarting the cache and incrementing
the counter. -/
theorem C1_per_template_decision (num : Nat) (f : U01) (k : Nat) (tpl : List Rec)
    (v : List (List Rec)) (draws : Nat → U01) (st : LoopSt) (r : Rec) :
    decideTemplate num f k tpl v = specDecision num f.val k tpl v ∧
    (k < num → decideTemplate num f k tpl v = v ++ [tpl] ∧
      (v.length = k → (decideTemplate num f k tpl v)[k]? = some tpl)) ∧
    (num ≤ k → decideTemplate num f k tpl v =
      if idxFor f.val k < num then v.set (idxFor f.val k) tpl else v) ∧
    finalizeRun num draws st = decideTemplate num (draws st.t) st.k st.rs st.v ∧
    (st.ridPrev ≠ none → st.ridPrev ≠ some r.qname →
      (procStep num draws st r).v =
        decideTemplate num (draws st.t) st.k st.rs st.v ∧
      (procStep num draws st r).k = st.k + 1 ∧
      (procStep num draws st r).rs = [r]) := by
  refine ⟨?_, ?_, ?_, ?_, ?_⟩
  · simp only [decideTemplate, specDecision, idxFor_eq_floor]
  · intro hk
    rw [decideTemplate, if_pos hk]
    refine ⟨rfl, ?_⟩
    intro hv
    rw [← hv]
    exact List.getElem?_concat_length v tpl
  · intro hk
    rw [decideTemplate, if_neg (Nat.not_lt.mpr hk)]
  · rfl
  · intro h1 h2
    have hcond : ¬(st.ridPrev = none ∨ st.ridPrev = some r.qname) := by
      rintro (h | h)
      · exact h1 h
      · exact h2 h
    rw [procStep, if_neg hcond]
    exact ⟨rfl, rfl, rfl⟩

/-- Witness for C1: with capacity two and zero templates processed the
cached template is appended and lands in slot zero. -/
theorem C1_witness :
    decideTemplate 2 (zeroDraws 0) 0 [rA1] [] = [] ++ [[rA1]] ∧
    (decideTemplate 2 (zeroDraws 0) 0 [rA1] [])[0]? = some [rA1] := by
  have h := C1_per_template_decision 2 (zeroDraws 0) 0 [rA1] [] zeroDraws initSt rA1
  exact ⟨(h.2.1 (by omega)).1, (h.2.1 (by omega)).2 rfl⟩

/-- C2 counterexample: on the empty record stream with capacity one the
post-loop block pushes the empty cached record set, so the reservoir
vector has one entry although min(N, K) is zero. -/
theorem C2_cex_empty_input : (runSampler 1 zeroDraws []).length = 1 ∧
    min 1 (group ([] : List Rec)).length = 0 := by
  constructor
  · decide
  · decide

/-- C2 (amended): counting actual templates, i.e. nonempty entries, the
reservoir holds exactly min(N, K) templates after exhaustion for every
input, and capacity zero always yields an empty vector; the raw vector
length differs from min(N, K) only for the empty input with positive
capacity, where the post-loop block pushes one empty record set. -/
theorem C2_reservoir_size (num : Nat) (draws : Nat → U01) (recs : List Rec) :
    (nonempties (runSampler num draws recs)).length =
      min num (group recs).length ∧
    (num = 0 → runSampler num draws recs = []) := by
  cases recs with
  | nil =>
    rw [runSampler_nil]
    constructor
    · by_cases h : 0 < num
      · rw [if_pos h]
        show ([] : List (List Rec)).length = min num ([] : List (List Rec)).length
        simp
      · rw [if_neg h]
        show ([] : List (List Rec)).length = min num ([] : List (List Rec)).length
        simp
    · intro h0
      subst h0
      rfl
  | cons r rest =>
    have hne := runSampler_cons_entries num draws r rest
    have hfe : nonempties (runSampler num draws (r :: rest)) =
        runSampler num draws (r :: rest) := nonempties_eq_self _ hne
    have hlen : (runSampler num draws (r :: rest)).length =
        min num (group (r :: rest)).length := by
      rw [run_eq_sample, sampleRun]
      rw [sfold_length num draws (group (r :: rest)) ⟨0, 0, []⟩ (by simp)]
      rw [Nat.zero_add, Nat.min_comm]
    constructor
    · rw [hfe, hlen]
    · intro h0
      subst h0
      have h1 : (runSampler 0 draws (r :: rest)).length = 0 := by
        rw [hlen]
        simp
      exact List.length_eq_zero.mp h1

/-- Witness for C2: with capacity zero the reservoir is the empty
vector. -/
theorem C2_witness : runSampler 0 zeroDraws [rA1] = [] :=
  (C2_reservoir_size 0 zeroDraws [rA1]).2 rfl

/-- C3: the run is a pure function of the draw stream and the input
record sequence: equal seeds (draw streams) and equal inputs give
bit-identical reservoir contents and emitted record sequences. -/
theorem C3_deterministic (num : Nat) (d1 d2 : Nat → U01)
    (recs1 recs2 : List Rec) (hd : d1 = d2) (hr : recs1 = recs2) :
    runSampler num d1 recs1 = runSampler num d2 recs2 ∧
    outputRecords num d1 recs1 = outputRecords num d2 recs2 := by
  subst hd
  subst hr
  exact ⟨rfl, rfl⟩

/-- Witness for C3 at a concrete seed and input. -/
theorem C3_witness :
    runSampler 2 zeroDraws [rA1, rB3] = runSampler 2 zeroDraws [rA1, rB3] ∧
    outputRecords 2 zeroDraws [rA1, rB3] = outputRecords 2 zeroDraws [rA1, rB3] :=
  C3_deterministic 2 zeroDraws zeroDraws [rA1, rB3] [rA1, rB3] rfl rfl

/-- C4: grouping emits exactly the maximal contiguous same-qname runs in
order: flattening the groups restores the input, every group is a
nonempty run with one shared qname, adjacent groups carry different
qnames, the reference example groups as stated, and a non-contiguous
repeat of a qname is silently split into separate templates. -/
theorem C4_grouping :
    (∀ recs : List Rec, (group recs).flatten = recs) ∧
    (∀ (recs : List Rec) (g : List Rec), g ∈ group recs →
      g ≠ [] ∧ ∀ x ∈ g, ∀ y ∈ g, x.qname = y.qname) ∧
    (∀ recs : List Rec,
      List.Chain' (fun g1 g2 => ∀ x ∈ g1, ∀ y ∈ g2, x.qname ≠ y.qname)
        (group recs)) ∧
    group [rA1, rA2, rB3, rC4, rC5, rC6] = [[rA1, rA2], [rB3], [rC4, rC5, rC6]] ∧
    group [rA1, rB3, rA2] = [[rA1], [rB3], [rA2]] := by
  refine ⟨group_flatten, ?_, ?_, by decide, by decide⟩
  · intro recs g hg
    refine ⟨group_mem_nonempty recs g hg, ?_⟩
    cases recs with
    | nil => simp [group] at hg
    | cons r rest =>
      obtain ⟨q, hq⟩ := groupAux_samekey rest r.qname [r] (by simp) g hg
      intro x hx y hy
      rw [hq x hx, hq y hy]
  · intro recs
    cases recs with
    | nil => simp [group]
    | cons r rest => exact groupAux_chain rest r.qname [r] (by simp)

/-- Witness for C4: a concrete group of the example input is a nonempty
single-qname run. -/
theorem C4_witness : [rA1, rA2] ≠ [] ∧
    ∀ x ∈ [rA1, rA2], ∀ y ∈ [rA1, rA2], x.qname = y.qname :=
  C4_grouping.2.1 [rA1, rA2, rB3] [rA1, rA2] (by decide)

/-- C5: when the capacity is at least the number of templates, every
template is retained: the templates held at the end are exactly the
groups of the input, even in their original order. -/
theorem C5_all_retained (num : Nat) (draws : Nat → U01) (recs : List Rec)
    (h : (group recs).length ≤ num) :
    nonempties (runSampler num draws recs) = group recs := by
  cases recs with
  | nil =>
    rw [runSampler_nil]
    by_cases h0 : 0 < num
    · rw [if_pos h0]; decide
    · rw [if_neg h0]; decide
  | cons r rest =>
    rw [run_eq_sample, sampleRun]
    rw [sfold_retain num draws (group (r :: rest)) ⟨0, 0, []⟩ (by simpa using h)]
    rw [List.nil_append]
    exact nonempties_eq_self _ (group_mem_nonempty _)

/-- Witness for C5 at a concrete oversized capacity. -/
theorem C5_witness :
    nonempties (runSampler 5 zeroDraws [rA1, rA2, rB3]) = group [rA1, rA2, rB3] :=
  C5_all_retained 5 zeroDraws [rA1, rA2, rB3] (by decide)

/-- C6 counterexample: with capacity one and input templates T1 = [rA1]
and T2 = [rB3], the final reservoir is [[rB3]] for every draw stream, so
T1 is included with probability zero and T2 with probability one — the
two input templates are not equally likely to be included. -/
theorem C6_cex_not_uniform :
    ((fun d : Nat → U01 => runSampler 1 d [rA1, rB3]) = fun _ => [[rB3]]) ∧
    ([[rB3]] : List (List Rec)).contains [rA1] = false ∧
    group [rA1, rB3] = [[rA1], [rB3]] := by
  refine ⟨two_templates_always_second, by decide, by decide⟩

/-- C6 (amended): the reservoir holds at most N templates after
exhaustion, but the selection is not uniform: under the pre-increment
index formula, with capacity one and two input templates the second
template is always retained and the first never is, independently of
the draw stream. -/
theorem C6_at_most_but_biased (num : Nat) (draws : Nat → U01) (recs : List Rec) :
    (runSampler num draws recs).length ≤ num ∧
    ((fun d : Nat → U01 => runSampler 1 d [rA1, rB3]) = fun _ => [[rB3]]) := by
  constructor
  · rw [runSampler]
    exact finalize_length_le num draws _
      (foldl_length_inv num draws recs initSt (by simp [initSt]))
  · exact two_templates_always_second

/-- C7 counterexample: on the empty stream with capacity one the
reservoir vector is not empty — it holds one (empty) record set — even
though no records are written. -/
theorem C7_cex_empty_entry : runSampler 1 zeroDraws [] = [[]] ∧
    outputRecords 1 zeroDraws [] = [] := by
  constructor
  · decide
  · decide

/-- C7 (amended): an empty input is not an error and writes no records;
the reservoir holds no template (no nonempty entry), though with a
positive capacity the vector itself holds one empty record set pushed by
the post-loop block. -/
theorem C7_empty_input (num : Nat) (draws : Nat → U01) :
    outputRecords num draws [] = [] ∧
    nonempties (runSampler num draws []) = [] ∧
    runSampler num draws [] = (if 0 < num then [[]] else []) := by
  have h := runSampler_nil num draws
  refine ⟨?_, ?_, h⟩
  · rw [outputRecords, h]
    by_cases h0 : 0 < num
    · rw [if_pos h0]; rfl
    · rw [if_neg h0]; rfl
  · rw [h]
    by_cases h0 : 0 < num
    · rw [if_pos h0]; rfl
    · rw [if_neg h0]; rfl

/-- C8 counterexample: for a two-template input the counter is one, not
two, after exhaustion: the post-loop decision does not increment k. -/
theorem C8_cex_final_no_increment :
    finalK 5 zeroDraws [rA1, rB3] = 1 ∧ (group [rA1, rB3]).length = 2 := by
  constructor
  · decide
  · decide

/-- C8 (amended): the counter k is incremented after every in-loop
per-template decision but not after the post-loop decision applied to
the final template, so after exhaustion k equals the total number of
templates observed minus one for a nonempty input, and zero for an empty
one. -/
theorem C8_counter (num : Nat) (draws : Nat → U01) (recs : List Rec) :
    (recs = [] → finalK num draws recs = 0) ∧
    (recs ≠ [] → finalK num draws recs + 1 = (group recs).length) := by
  constructor
  · intro h
    subst h
    rfl
  · intro h
    cases recs with
    | nil => exact absurd rfl h
    | cons r rest =>
      rw [finalK, List.foldl_cons, procStep_init, group]
      have hb := bridge_k num draws rest r.qname [r] 0 0 []
      omega

/-- Witness for C8 at a concrete two-template input. -/
theorem C8_witness : finalK 5 zeroDraws [rA1, rB3] + 1 = (group [rA1, rB3]).length :=
  (C8_counter 5 zeroDraws [rA1, rB3]).2 (by decide)

/-- C9: in every reachable loop state the reservoir vector length is the
minimum of the counter and the capacity; hence whenever the overwrite
branch is reached (the counter at least the capacity) with a candidate
index below the capacity, that index is strictly within the vector, so
the slot write cannot go out of bounds. -/
theorem C9_slot_write_in_bounds (num : Nat) (draws : Nat → U01) (recs : List Rec) :
    (recs.foldl (procStep num draws) initSt).v.length =
      min (recs.foldl (procStep num draws) initSt).k num ∧
    (num ≤ (recs.foldl (procStep num draws) initSt).k →
      idxFor (draws (recs.foldl (procStep num draws) initSt).t).val
          (recs.foldl (procStep num draws) initSt).k < num →
      idxFor (draws (recs.foldl (procStep num draws) initSt).t).val
          (recs.foldl (procStep num draws) initSt).k <
        (recs.foldl (procStep num draws) initSt).v.length) := by
  have hinv := foldl_length_inv num draws recs initSt (by simp [initSt])
  refine ⟨hinv, ?_⟩
  intro hk hi
  rw [hinv, Nat.min_eq_right hk]
  exact hi

/-- Witness for C9: after three single-record templates with capacity
one the overflow index is in bounds. -/
theorem C9_witness :
    idxFor (zeroDraws ([rA1, rB3, rC4].foldl (procStep 1 zeroDraws) initSt).t).val
        ([rA1, rB3, rC4].foldl (procStep 1 zeroDraws) initSt).k <
      ([rA1, rB3, rC4].foldl (procStep 1 zeroDraws) initSt).v.length := by
  refine (C9_slot_write_in_bounds 1 zeroDraws [rA1, rB3, rC4]).2 ?_ ?_
  · simp [procStep, initSt, decideTemplate, idxFor, zeroDraws, rA1, rB3, rC4]
  · simp [procStep, initSt, decideTemplate, idxFor, zeroDraws, rA1, rB3, rC4]

/-- C10: when the reservoir has just been exactly filled (the counter
equals the capacity, at least one) the next decision always overwrites:
the candidate index is below the capacity for every draw in [0,1), so
the arriving template is placed with probability one and the discard
branch is unreachable. -/
theorem C10_overflow_always_placed (num : Nat) (draws : Nat → U01)
    (st : LoopSt) (f : U01) (hnum : 1 ≤ num) (hk : st.k = num) :
    idxFor f.val st.k < num ∧
    finalizeRun num draws st = st.v.set (idxFor (draws st.t).val st.k) st.rs ∧
    (st.v.length = num → st.rs ∈ finalizeRun num draws st) := by
  have hlt : ∀ g : U01, idxFor g.val st.k < num := by
    intro g
    rw [hk]
    exact idxFor_lt g num hnum
  have hfin : finalizeRun num draws st =
      st.v.set (idxFor (draws st.t).val st.k) st.rs := by
    rw [finalizeRun, if_neg (by omega : ¬ st.k < num)]
    show (if idxFor (draws st.t).val st.k < num then
        st.v.set (idxFor (draws st.t).val st.k) st.rs else st.v) =
      st.v.set (idxFor (draws st.t).val st.k) st.rs
    rw [if_pos (hlt (draws st.t))]
  refine ⟨hlt f, hfin, ?_⟩
  intro hv
  rw [hfin]
  have hib : idxFor (draws st.t).val st.k <
      (st.v.set (idxFor (draws st.t).val st.k) st.rs).length := by
    rw [List.length_set, hv]
    exact hlt (draws st.t)
  have hset := List.getElem_set_self hib
  have hmem := List.getElem_mem hib
  rw [hset] at hmem
  exact hmem

/-- Witness for C10: a freshly filled capacity-one reservoir always
receives the next template. -/
theorem C10_witness :
    idxFor (zeroDraws 0).val (1 : Nat) < 1 ∧
    finalizeRun 1 zeroDraws ⟨1, [[rA1]], [rB3], some "B", 0⟩ =
      [[rA1]].set (idxFor (zeroDraws 0).val 1) [rB3] ∧
    (([[rA1]] : List (List Rec)).length = 1 →
      [rB3] ∈ finalizeRun 1 zeroDraws ⟨1, [[rA1]], [rB3], some "B", 0⟩) :=
  C10_overflow_always_placed 1 zeroDraws ⟨1, [[rA1]], [rB3], some "B", 0⟩
    (zeroDraws 0) (by omega) rfl

end SamSub
